import Mathlib

/-!
Verification of the DFS stepping engine of `graph-visualizer` (src/src/App.jsx).

The engine is the `useDFS` hook: run state (`visited`, `stack`, `current`,
`isRunning`, `isDone`, `speed`), neighbor lookup over a directed edge list,
and the operations `startDFS`, `step`, `pause` (`setIsRunning(false)`),
`reset` and `setSpeed`.  React state setters within one `step` call all read
the closure values captured at the start of the call and are applied as one
batch, so `step` is embedded as a pure function on the run state.
-/

/-- The engine's run state (the `useState` fields of `useDFS`,
App.jsx lines 56-61).  Node ids are strings; `speed` is an integer number
of milliseconds. -/
structure DFSState where
  visited : List String
  stack : List String
  current : Option String
  isRunning : Bool
  isDone : Bool
  speed : Int
  deriving Repr, DecidableEq

/-- Initial hook state: `visited = []`, `stack = []`, `current = null`,
`isRunning = false`, `isDone = false`, `speed = 500` (App.jsx lines 56-61). -/
def initState : DFSState :=
  { visited := [], stack := [], current := none,
    isRunning := false, isDone := false, speed := 500 }

/-- `getNeighbors` (App.jsx lines 67-71): targets of edges whose source is
`nodeId`, in edge-list order. -/
def getNeighbors (edges : List (String × String)) (nodeId : String) : List String :=
  (edges.filter (fun edge => edge.1 == nodeId)).map (fun edge => edge.2)

/-- The unvisited-neighbor list computed inside `step` (App.jsx lines
165-167): neighbors of `node` filtered against the `visited` closure value,
then reversed. -/
def candidates (edges : List (String × String)) (visited : List String)
    (node : String) : List String :=
  ((getNeighbors edges node).filter (fun neighbor => !(visited.contains neighbor))).reverse

/-- `step` (App.jsx lines 151-180).  The stack top is the last array element
(`stack[stack.length - 1]`); `prev.slice(0, -1)` is `dropLast`.  All setters
read the pre-call state, so the filter in `candidates` uses the `visited`
value from before `node` is appended. -/
def step (edges : List (String × String)) (s : DFSState) : DFSState :=
  if s.isDone || s.stack.isEmpty then
    { s with isDone := true, isRunning := false }
  else
    match s.stack.getLast? with
    | none => { s with isDone := true, isRunning := false }
    | some node =>
      if !(s.visited.contains node) then
        if (candidates edges s.visited node).isEmpty then
          { s with current := some node,
                   visited := s.visited ++ [node],
                   stack := s.stack.dropLast }
        else
          { s with current := some node,
                   visited := s.visited ++ [node],
                   stack := s.stack.dropLast ++ node :: candidates edges s.visited node }
      else
        { s with current := some node, stack := s.stack.dropLast }

/-- `reset` (App.jsx lines 121-141), restricted to the run state: clears
`visited`, `stack`, `current`, `isRunning`, `isDone`; `speed` is untouched. -/
def resetState (s : DFSState) : DFSState :=
  { s with visited := [], stack := [], current := none,
           isRunning := false, isDone := false }

/-- `startDFS` (App.jsx lines 144-148): `reset()` then `setStack([startNodeId])`
and `setIsRunning(true)`. -/
def startDFS (startNodeId : String) (s : DFSState) : DFSState :=
  { resetState s with stack := [startNodeId], isRunning := true }

/-- `pause` (App.jsx line 408): `setIsRunning(false)`. -/
def pause (s : DFSState) : DFSState :=
  { s with isRunning := false }

/-- `setSpeed` (App.jsx line 61): the raw `useState` setter; stores `ms`
verbatim, with no validation or clamping in the engine. -/
def setSpeedOp (ms : Int) (s : DFSState) : DFSState :=
  { s with speed := ms }

/-- The reference graph's edge list (`createInitialElements`,
App.jsx lines 358-365). -/
def initialEdges : List (String × String) :=
  [("A", "B"), ("A", "C"), ("B", "D"), ("B", "E"), ("C", "E"), ("C", "F")]

/-- The run state after `startDFS` followed by `k` calls to `step`. -/
def dfsIter (edges : List (String × String)) (startId : String) (k : Nat) : DFSState :=
  (step edges)^[k] (startDFS startId initState)

/-- The operations the UI layer can invoke on the engine (ControlPanel
wiring, App.jsx lines 402-411): Start/Restart, Step, Pause, Reset and the
speed slider. -/
inductive Op where
  | start (id : String)
  | step
  | pause
  | reset
  | setSpeed (ms : Int)
  deriving Repr, DecidableEq

/-- Apply one operation to the run state. -/
def applyOp (edges : List (String × String)) : Op → DFSState → DFSState
  | Op.start id, s => startDFS id s
  | Op.step, s => step edges s
  | Op.pause, s => pause s
  | Op.reset, s => resetState s
  | Op.setSpeed ms, s => setSpeedOp ms s

/-- Run a sequence of operations. -/
def runOps (edges : List (String × String)) (ops : List Op) (s : DFSState) : DFSState :=
  ops.foldl (fun t op => applyOp edges op t) s

/-- True exactly for `reset` and `start` (reset/restart operations). -/
def Op.isRestart : Op → Bool
  | Op.start _ => true
  | Op.reset => true
  | _ => false

/-- The auto-advance effect (App.jsx lines 183-188): `setTimeout(step, speed)`
is armed only while `isRunning && !isDone`, and the effect cleanup runs
`clearTimeout` whenever that condition changes, so a timer firing delivers a
`step` exactly when the state is still running and not done; a cancelled
timer delivers nothing. -/
def autoFire (edges : List (String × String)) (s : DFSState) : DFSState :=
  if s.isRunning && !s.isDone then step edges s else s

/-- The delay with which the auto-advance effect arms its timer, when it
arms one: `some speed` under the guard `isRunning && !isDone`
(App.jsx lines 183-188), otherwise no timer. -/
def armedDelay (s : DFSState) : Option Int :=
  if s.isRunning && !s.isDone then some s.speed else none

/-- Modelled from the spec: the UI layer's speed control is an HTML range
input with min 100 and max 1000 (ControlPanel, App.jsx lines 273-281); the
browser clamps any value into that interval before `onSpeedChange`
(`setSpeed`) fires.  The clamping is the browser's input semantics, not code
present in the repository; the engine's `setSpeedOp` itself does not clamp. -/
def sliderClamp (v : Int) : Int :=
  max 100 (min 1000 v)

/-- The step function as claim C3 words it, for comparison with `step`: the
candidate filter excludes ids in the visited list that already includes
`node` itself (the code filters against the visited list from before `node`
was appended). -/
def stepClaimed (edges : List (String × String)) (s : DFSState) : DFSState :=
  if s.isDone || s.stack.isEmpty then
    { s with isDone := true, isRunning := false }
  else
    match s.stack.getLast? with
    | none => { s with isDone := true, isRunning := false }
    | some node =>
      if !(s.visited.contains node) then
        if (candidates edges (s.visited ++ [node]) node).isEmpty then
          { s with current := some node,
                   visited := s.visited ++ [node],
                   stack := s.stack.dropLast }
        else
          { s with current := some node,
                   visited := s.visited ++ [node],
                   stack := s.stack.dropLast ++
                     node :: candidates edges (s.visited ++ [node]) node }
      else
        { s with current := some node, stack := s.stack.dropLast }

/-! ### Basic bridges between `Bool`-level list operations and membership -/

lemma contains_iff (l : List String) (a : String) : l.contains a = true ↔ a ∈ l :=
  List.elem_iff

lemma contains_eq_false_iff (l : List String) (a : String) :
    l.contains a = false ↔ a ∉ l := by
  rw [← Bool.not_eq_true, contains_iff]

lemma mem_candidates {edges : List (String × String)} {visited : List String}
    {node v : String} :
    v ∈ candidates edges visited node ↔ v ∈ getNeighbors edges node ∧ v ∉ visited := by
  unfold candidates
  rw [List.mem_reverse, List.mem_filter, Bool.not_eq_true', contains_eq_false_iff]

lemma candidates_eq_nil_iff {edges : List (String × String)} {visited : List String}
    {node : String} :
    candidates edges visited node = [] ↔ ∀ v ∈ getNeighbors edges node, v ∈ visited := by
  unfold candidates
  rw [List.reverse_eq_nil_iff, List.filter_eq_nil_iff]
  constructor
  · intro h v hv
    have := h v hv
    rw [Bool.not_eq_true', contains_eq_false_iff] at this
    exact not_not.mp this
  · intro h v hv
    rw [Bool.not_eq_true', contains_eq_false_iff, not_not]
    exact h v hv

lemma concat_isEmpty_eq_false (rest : List String) (node : String) :
    (rest ++ [node]).isEmpty = false := by
  cases rest <;> rfl

/-! ### Characterization of the four branches of `step` -/

lemma step_of_done (edges : List (String × String)) (s : DFSState)
    (h : s.isDone = true) :
    step edges s = { s with isDone := true, isRunning := false } := by
  unfold step
  rw [h]
  simp

lemma step_of_nil (edges : List (String × String)) (s : DFSState)
    (h : s.stack = []) :
    step edges s = { s with isDone := true, isRunning := false } := by
  unfold step
  rw [h]
  simp

lemma step_of_revisit (edges : List (String × String)) (s : DFSState)
    (rest : List String) (node : String)
    (hd : s.isDone = false) (hs : s.stack = rest ++ [node]) (hv : node ∈ s.visited) :
    step edges s = { s with current := some node, stack := rest } := by
  unfold step
  rw [hs]
  simp [hd, hv, List.getLast?_concat, concat_isEmpty_eq_false, List.dropLast_concat]

lemma step_of_leaf (edges : List (String × String)) (s : DFSState)
    (rest : List String) (node : String)
    (hd : s.isDone = false) (hs : s.stack = rest ++ [node]) (hv : node ∉ s.visited)
    (hc : candidates edges s.visited node = []) :
    step edges s = { s with current := some node,
                            visited := s.visited ++ [node], stack := rest } := by
  unfold step
  rw [hs]
  simp [hd, hv, hc, List.getLast?_concat, concat_isEmpty_eq_false, List.dropLast_concat]

lemma step_of_expand (edges : List (String × String)) (s : DFSState)
    (rest : List String) (node : String)
    (hd : s.isDone = false) (hs : s.stack = rest ++ [node]) (hv : node ∉ s.visited)
    (hc : candidates edges s.visited node ≠ []) :
    step edges s = { s with current := some node,
                            visited := s.visited ++ [node],
                            stack := rest ++ node :: candidates edges s.visited node } := by
  unfold step
  rw [hs]
  simp [hd, hv, hc, List.getLast?_concat, concat_isEmpty_eq_false, List.dropLast_concat]

/-! ### Reachability along directed edges -/

/-- One directed hop: `v` is among the neighbor targets of `u`. -/
def Nbr (edges : List (String × String)) (u v : String) : Prop :=
  v ∈ getNeighbors edges u

/-- `b` is reachable from `a` along directed edges (reflexive-transitive). -/
def Reaches (edges : List (String × String)) (a b : String) : Prop :=
  Relation.ReflTransGen (Nbr edges) a b

lemma getNeighbors_subset_targets (edges : List (String × String)) (u v : String)
    (h : v ∈ getNeighbors edges u) : v ∈ edges.map (fun e => e.2) := by
  unfold getNeighbors at h
  rcases List.mem_map.mp h with ⟨e, he, rfl⟩
  exact List.mem_map.mpr ⟨e, (List.mem_filter.mp he).1, rfl⟩

/-- All ids that can ever sit on the stack: the start id and every edge
target. -/
def nodePool (edges : List (String × String)) (startId : String) : List String :=
  (startId :: edges.map (fun e => e.2)).dedup

lemma nodup_append_singleton {l : List String} {a : String} (h : l.Nodup) (ha : a ∉ l) :
    (l ++ [a]).Nodup :=
  List.nodup_append.mpr ⟨h, List.nodup_singleton a, List.disjoint_singleton.mpr ha⟩

/-! ### The run invariant -/

/-- Invariant maintained by `step` along any run seeded by `startDFS`. -/
structure DFSInv (edges : List (String × String)) (startId : String) (s : DFSState) : Prop where
  nodup : s.visited.Nodup
  vis_reach : ∀ x ∈ s.visited, Reaches edges startId x
  stk_reach : ∀ x ∈ s.stack, Reaches edges startId x
  stk_pool : ∀ x ∈ s.stack, x ∈ nodePool edges startId
  closed : ∀ u ∈ s.visited, ∀ v, Nbr edges u v → v ∈ s.visited ∨ v ∈ s.stack
  start_mem : startId ∈ s.visited ∨ startId ∈ s.stack
  done_nil : s.isDone = true → s.stack = []

lemma inv_start (edges : List (String × String)) (startId : String) (s : DFSState) :
    DFSInv edges startId (startDFS startId s) :=
  { nodup := by simp [startDFS, resetState]
    vis_reach := by simp [startDFS, resetState]
    stk_reach := by
      intro x hx
      simp only [startDFS, resetState] at hx
      rw [List.mem_singleton] at hx
      subst hx
      exact Relation.ReflTransGen.refl
    stk_pool := by
      intro x hx
      simp only [startDFS, resetState] at hx
      rw [List.mem_singleton] at hx
      subst hx
      exact List.mem_dedup.mpr (List.mem_cons_self _ _)
    closed := by simp [startDFS, resetState]
    start_mem := by simp [startDFS, resetState]
    done_nil := by simp [startDFS, resetState] }

lemma inv_step (edges : List (String × String)) (startId : String) (s : DFSState)
    (hI : DFSInv edges startId s) : DFSInv edges startId (step edges s) := by
  by_cases hd : s.isDone = true
  · rw [step_of_done edges s hd]
    exact { nodup := hI.nodup, vis_reach := hI.vis_reach, stk_reach := hI.stk_reach,
            stk_pool := hI.stk_pool, closed := hI.closed, start_mem := hI.start_mem,
            done_nil := fun _ => hI.done_nil hd }
  · have hd' : s.isDone = false := Bool.not_eq_true s.isDone ▸ hd
    rcases List.eq_nil_or_concat s.stack with hnil | ⟨rest, node, hs⟩
    · rw [step_of_nil edges s hnil]
      exact { nodup := hI.nodup, vis_reach := hI.vis_reach, stk_reach := hI.stk_reach,
              stk_pool := hI.stk_pool, closed := hI.closed, start_mem := hI.start_mem,
              done_nil := fun _ => hnil }
    · rw [List.concat_eq_append] at hs
      have hnode_stack : node ∈ s.stack := by
        rw [hs]; exact List.mem_append_right _ (List.mem_singleton.mpr rfl)
      have hnode_reach : Reaches edges startId node := hI.stk_reach node hnode_stack
      have hnode_pool : node ∈ nodePool edges startId := hI.stk_pool node hnode_stack
      have hrest_stack : ∀ x ∈ rest, x ∈ s.stack := by
        intro x hx
        rw [hs]
        exact List.mem_append_left _ hx
      by_cases hv : node ∈ s.visited
      · rw [step_of_revisit edges s rest node hd' hs hv]
        refine ⟨hI.nodup, hI.vis_reach, ?_, ?_, ?_, ?_, ?_⟩
        · exact fun x hx => hI.stk_reach x (hrest_stack x hx)
        · exact fun x hx => hI.stk_pool x (hrest_stack x hx)
        · intro u hu v hnv
          rcases hI.closed u hu v hnv with h | h
          · exact Or.inl h
          · rw [hs] at h
            rcases List.mem_append.mp h with h2 | h2
            · exact Or.inr h2
            · rw [List.mem_singleton] at h2
              subst h2
              exact Or.inl hv
        · rcases hI.start_mem with h | h
          · exact Or.inl h
          · rw [hs] at h
            rcases List.mem_append.mp h with h2 | h2
            · exact Or.inr h2
            · rw [List.mem_singleton] at h2
              subst h2
              exact Or.inl hv
        · intro h
          simp only at h
          rw [hd'] at h
          cases h
      · by_cases hc : candidates edges s.visited node = []
        · rw [step_of_leaf edges s rest node hd' hs hv hc]
          refine ⟨?_, ?_, ?_, ?_, ?_, ?_, ?_⟩
          · exact nodup_append_singleton hI.nodup hv
          · intro x hx
            rcases List.mem_append.mp hx with h2 | h2
            · exact hI.vis_reach x h2
            · rw [List.mem_singleton] at h2
              subst h2
              exact hnode_reach
          · exact fun x hx => hI.stk_reach x (hrest_stack x hx)
          · exact fun x hx => hI.stk_pool x (hrest_stack x hx)
          · intro u hu v hnv
            rcases List.mem_append.mp hu with h2 | h2
            · rcases hI.closed u h2 v hnv with h3 | h3
              · exact Or.inl (List.mem_append_left _ h3)
              · rw [hs] at h3
                rcases List.mem_append.mp h3 with h4 | h4
                · exact Or.inr h4
                · rw [List.mem_singleton] at h4
                  subst h4
                  exact Or.inl (List.mem_append_right _ (List.mem_singleton.mpr rfl))
            · rw [List.mem_singleton] at h2
              subst h2
              exact Or.inl (List.mem_append_left _ (candidates_eq_nil_iff.mp hc v hnv))
          · rcases hI.start_mem with h | h
            · exact Or.inl (List.mem_append_left _ h)
            · rw [hs] at h
              rcases List.mem_append.mp h with h2 | h2
              · exact Or.inr h2
              · rw [List.mem_singleton] at h2
                subst h2
                exact Or.inl (List.mem_append_right _ (List.mem_singleton.mpr rfl))
          · intro h
            simp only at h
            rw [hd'] at h
            cases h
        · rw [step_of_expand edges s rest node hd' hs hv hc]
          refine ⟨?_, ?_, ?_, ?_, ?_, ?_, ?_⟩
          · exact nodup_append_singleton hI.nodup hv
          · intro x hx
            rcases List.mem_append.mp hx with h2 | h2
            · exact hI.vis_reach x h2
            · rw [List.mem_singleton] at h2
              subst h2
              exact hnode_reach
          · intro x hx
            rcases List.mem_append.mp hx with h2 | h2
            · exact hI.stk_reach x (hrest_stack x h2)
            · rcases List.mem_cons.mp h2 with h3 | h3
              · subst h3
                exact hnode_reach
              · exact Relation.ReflTransGen.tail hnode_reach (mem_candidates.mp h3).1
          · intro x hx
            rcases List.mem_append.mp hx with h2 | h2
            · exact hI.stk_pool x (hrest_stack x h2)
            · rcases List.mem_cons.mp h2 with h3 | h3
              · subst h3
                exact hnode_pool
              · exact List.mem_dedup.mpr (List.mem_cons.mpr (Or.inr
                  (getNeighbors_subset_targets edges node x (mem_candidates.mp h3).1)))
          · intro u hu v hnv
            rcases List.mem_append.mp hu with h2 | h2
            · rcases hI.closed u h2 v hnv with h3 | h3
              · exact Or.inl (List.mem_append_left _ h3)
              · rw [hs] at h3
                rcases List.mem_append.mp h3 with h4 | h4
                · exact Or.inr (List.mem_append_left _ h4)
                · rw [List.mem_singleton] at h4
                  subst h4
                  exact Or.inr (List.mem_append_right _ (List.mem_cons_self _ _))
            · rw [List.mem_singleton] at h2
              subst h2
              by_cases hvv : v ∈ s.visited
              · exact Or.inl (List.mem_append_left _ hvv)
              · exact Or.inr (List.mem_append_right _ (List.mem_cons.mpr (Or.inr
                  (mem_candidates.mpr ⟨hnv, hvv⟩))))
          · rcases hI.start_mem with h | h
            · exact Or.inl (List.mem_append_left _ h)
            · rw [hs] at h
              rcases List.mem_append.mp h with h2 | h2
              · exact Or.inr (List.mem_append_left _ h2)
              · rw [List.mem_singleton] at h2
                subst h2
                exact Or.inr (List.mem_append_right _ (List.mem_cons_self _ _))
          · intro h
            simp only at h
            rw [hd'] at h
            cases h

/-! ### Termination measure -/

/-- Number of pool ids not yet visited. -/
def unvisitedCount (edges : List (String × String)) (startId : String)
    (visited : List String) : Nat :=
  ((nodePool edges startId).filter (fun x => !(visited.contains x))).length

/-- Lexicographic-style measure: each `step` on a non-empty stack strictly
decreases it. -/
def mu (edges : List (String × String)) (startId : String) (s : DFSState) : Nat :=
  unvisitedCount edges startId s.visited * (edges.length + 2) + s.stack.length

lemma filter_length_le_of_imp (l : List String) (p q : String → Bool)
    (h : ∀ x ∈ l, q x = true → p x = true) :
    (l.filter q).length ≤ (l.filter p).length := by
  induction l with
  | nil => exact Nat.le_refl _
  | cons b t ih =>
    have ht : ∀ x ∈ t, q x = true → p x = true :=
      fun x hx => h x (List.mem_cons_of_mem b hx)
    cases hq : q b
    · rw [List.filter_cons_of_neg (by simp [hq])]
      cases hp : p b
      · rw [List.filter_cons_of_neg (by simp [hp])]
        exact ih ht
      · rw [List.filter_cons_of_pos hp, List.length_cons]
        exact Nat.le_succ_of_le (ih ht)
    · have hp : p b = true := h b (List.mem_cons_self b t) hq
      rw [List.filter_cons_of_pos hq, List.filter_cons_of_pos hp,
        List.length_cons, List.length_cons]
      exact Nat.succ_le_succ (ih ht)

lemma filter_length_lt_of_witness (l : List String) (p q : String → Bool)
    (h : ∀ x ∈ l, q x = true → p x = true) (a : String) (ha : a ∈ l)
    (hpa : p a = true) (hqa : q a = false) :
    (l.filter q).length < (l.filter p).length := by
  induction l with
  | nil => cases ha
  | cons b t ih =>
    have ht : ∀ x ∈ t, q x = true → p x = true :=
      fun x hx => h x (List.mem_cons_of_mem b hx)
    rcases List.mem_cons.mp ha with rfl | hat
    · rw [List.filter_cons_of_pos hpa, List.filter_cons_of_neg (by simp [hqa]),
        List.length_cons]
      exact Nat.lt_succ_of_le (filter_length_le_of_imp t p q ht)
    · cases hq : q b
      · rw [List.filter_cons_of_neg (by simp [hq])]
        cases hp : p b
        · rw [List.filter_cons_of_neg (by simp [hp])]
          exact ih ht hat
        · rw [List.filter_cons_of_pos hp, List.length_cons]
          exact Nat.lt_succ_of_le ((filter_length_le_of_imp t p q ht))
      · have hp : p b = true := h b (List.mem_cons_self b t) hq
        rw [List.filter_cons_of_pos hq, List.filter_cons_of_pos hp,
          List.length_cons, List.length_cons]
        exact Nat.succ_lt_succ (ih ht hat)

lemma unvisitedCount_append_lt (edges : List (String × String)) (startId : String)
    (visited : List String) (node : String)
    (hpool : node ∈ nodePool edges startId) (hv : node ∉ visited) :
    unvisitedCount edges startId (visited ++ [node]) <
      unvisitedCount edges startId visited := by
  unfold unvisitedCount
  apply filter_length_lt_of_witness _ _ _ ?_ node hpool ?_ ?_
  · intro x _ hx
    rw [Bool.not_eq_true'] at hx ⊢
    rw [contains_eq_false_iff] at hx ⊢
    intro hmem
    exact hx (List.mem_append_left _ hmem)
  · rw [Bool.not_eq_true', contains_eq_false_iff]
    exact hv
  · have : (visited ++ [node]).contains node = true :=
      (contains_iff _ _).mpr (List.mem_append_right _ (List.mem_singleton.mpr rfl))
    rw [this]
    rfl

lemma candidates_length_le (edges : List (String × String)) (visited : List String)
    (node : String) : (candidates edges visited node).length ≤ edges.length := by
  unfold candidates getNeighbors
  rw [List.length_reverse]
  calc (((edges.filter (fun e => e.1 == node)).map (fun e => e.2)).filter
          (fun n => !(visited.contains n))).length
      ≤ ((edges.filter (fun e => e.1 == node)).map (fun e => e.2)).length :=
        List.length_filter_le _ _
    _ = (edges.filter (fun e => e.1 == node)).length := List.length_map _ _
    _ ≤ edges.length := List.length_filter_le _ _

lemma mu_step_lt (edges : List (String × String)) (startId : String) (s : DFSState)
    (hI : DFSInv edges startId s) (hne : s.stack ≠ []) :
    mu edges startId (step edges s) < mu edges startId s := by
  have hd' : s.isDone = false := by
    cases h : s.isDone
    · rfl
    · exact absurd (hI.done_nil h) hne
  rcases List.eq_nil_or_concat s.stack with hnil | ⟨rest, node, hs⟩
  · exact absurd hnil hne
  · rw [List.concat_eq_append] at hs
    have hnode_pool : node ∈ nodePool edges startId :=
      hI.stk_pool node (by rw [hs]; exact List.mem_append_right _ (List.mem_singleton.mpr rfl))
    have hlen : s.stack.length = rest.length + 1 := by
      rw [hs, List.length_append, List.length_singleton]
    by_cases hv : node ∈ s.visited
    · rw [step_of_revisit edges s rest node hd' hs hv]
      unfold mu
      simp only
      omega
    · have hcount := unvisitedCount_append_lt edges startId s.visited node hnode_pool hv
      have hmul : unvisitedCount edges startId (s.visited ++ [node]) * (edges.length + 2)
          + (edges.length + 2) ≤
          unvisitedCount edges startId s.visited * (edges.length + 2) := by
        have h1 : unvisitedCount edges startId (s.visited ++ [node]) + 1 ≤
            unvisitedCount edges startId s.visited := hcount
        calc unvisitedCount edges startId (s.visited ++ [node]) * (edges.length + 2)
              + (edges.length + 2)
            = (unvisitedCount edges startId (s.visited ++ [node]) + 1) * (edges.length + 2) := by
              rw [Nat.succ_mul]
          _ ≤ unvisitedCount edges startId s.visited * (edges.length + 2) :=
              Nat.mul_le_mul_right _ h1
      by_cases hc : candidates edges s.visited node = []
      · rw [step_of_leaf edges s rest node hd' hs hv hc]
        unfold mu
        simp only
        omega
      · rw [step_of_expand edges s rest node hd' hs hv hc]
        have hclen : (candidates edges s.visited node).length ≤ edges.length :=
          candidates_length_le edges s.visited node
        unfold mu
        simp only [List.length_append, List.length_cons]
        omega

/-! ### Termination, stability, completeness -/

lemma inv_iterate (edges : List (String × String)) (startId : String) (s : DFSState)
    (hI : DFSInv edges startId s) (n : Nat) :
    DFSInv edges startId ((step edges)^[n] s) := by
  induction n with
  | zero => exact hI
  | succ n ih =>
    rw [Function.iterate_succ_apply']
    exact inv_step edges startId _ ih

lemma inv_dfsIter (edges : List (String × String)) (startId : String) (k : Nat) :
    DFSInv edges startId (dfsIter edges startId k) :=
  inv_iterate edges startId _ (inv_start edges startId initState) k

lemma exists_iterate_stack_nil (edges : List (String × String)) (startId : String) :
    ∀ (k : Nat) (s : DFSState), DFSInv edges startId s → mu edges startId s ≤ k →
      ∃ n, ((step edges)^[n] s).stack = [] := by
  intro k
  induction k with
  | zero =>
    intro s _ hle
    by_cases h : s.stack = []
    · exact ⟨0, h⟩
    · have hpos : 0 < s.stack.length := List.length_pos.mpr h
      unfold mu at hle
      omega
  | succ k ih =>
    intro s hI hle
    by_cases h : s.stack = []
    · exact ⟨0, h⟩
    · have hlt := mu_step_lt edges startId s hI h
      obtain ⟨n, hn⟩ := ih (step edges s) (inv_step edges startId s hI) (by omega)
      exact ⟨n + 1, by rw [Function.iterate_succ_apply]; exact hn⟩

/-- Once the stack is empty, further steps freeze `visited`, `stack` and
`current`, and from the first subsequent step on, `isDone` is `true`. -/
lemma iterate_of_stack_nil (edges : List (String × String)) (s : DFSState)
    (h : s.stack = []) (n : Nat) :
    ((step edges)^[n] s).stack = [] ∧
    ((step edges)^[n] s).visited = s.visited ∧
    ((step edges)^[n] s).current = s.current ∧
    (1 ≤ n → ((step edges)^[n] s).isDone = true) := by
  induction n with
  | zero => exact ⟨h, rfl, rfl, fun hle => absurd hle (by omega)⟩
  | succ n ih =>
    obtain ⟨h1, h2, h3, _⟩ := ih
    rw [Function.iterate_succ_apply', step_of_nil edges _ h1]
    exact ⟨h1, h2, h3, fun _ => rfl⟩

lemma reaches_mem_visited_of_stack_nil (edges : List (String × String))
    (startId : String) (s : DFSState) (hI : DFSInv edges startId s)
    (hnil : s.stack = []) (x : String) (hx : Reaches edges startId x) :
    x ∈ s.visited := by
  have hx' : Relation.ReflTransGen (Nbr edges) startId x := hx
  clear hx
  induction hx' with
  | refl =>
    rcases hI.start_mem with h | h
    · exact h
    · rw [hnil] at h
      cases h
  | tail _ hbc ih =>
    rcases hI.closed _ ih _ hbc with h | h
    · exact h
    · rw [hnil] at h
      cases h

/-! ### Invariants over arbitrary operation sequences -/

lemma step_current_ok (edges : List (String × String)) (s : DFSState)
    (h1 : s.current = none ∨ ∃ c, s.current = some c ∧ c ∈ s.visited)
    (h2 : s.isDone = true → s.stack = []) :
    ((step edges s).current = none ∨
      ∃ c, (step edges s).current = some c ∧ c ∈ (step edges s).visited) ∧
    ((step edges s).isDone = true → (step edges s).stack = []) := by
  by_cases hd : s.isDone = true
  · rw [step_of_done edges s hd]
    exact ⟨h1, fun _ => h2 hd⟩
  · have hd' : s.isDone = false := Bool.not_eq_true s.isDone ▸ hd
    rcases List.eq_nil_or_concat s.stack with hnil | ⟨rest, node, hs⟩
    · rw [step_of_nil edges s hnil]
      exact ⟨h1, fun _ => hnil⟩
    · rw [List.concat_eq_append] at hs
      by_cases hv : node ∈ s.visited
      · rw [step_of_revisit edges s rest node hd' hs hv]
        refine ⟨Or.inr ⟨node, rfl, hv⟩, ?_⟩
        intro h
        simp only at h
        rw [hd'] at h
        cases h
      · by_cases hc : candidates edges s.visited node = []
        · rw [step_of_leaf edges s rest node hd' hs hv hc]
          refine ⟨Or.inr ⟨node, rfl,
            List.mem_append_right _ (List.mem_singleton.mpr rfl)⟩, ?_⟩
          intro h
          simp only at h
          rw [hd'] at h
          cases h
        · rw [step_of_expand edges s rest node hd' hs hv hc]
          refine ⟨Or.inr ⟨node, rfl,
            List.mem_append_right _ (List.mem_singleton.mpr rfl)⟩, ?_⟩
          intro h
          simp only at h
          rw [hd'] at h
          cases h

lemma runOps_current_ok (edges : List (String × String)) (ops : List Op) :
    ∀ s : DFSState,
      (s.current = none ∨ ∃ c, s.current = some c ∧ c ∈ s.visited) →
      (s.isDone = true → s.stack = []) →
      ((runOps edges ops s).current = none ∨
        ∃ c, (runOps edges ops s).current = some c ∧
          c ∈ (runOps edges ops s).visited) ∧
      ((runOps edges ops s).isDone = true → (runOps edges ops s).stack = []) := by
  induction ops with
  | nil => exact fun s h1 h2 => ⟨h1, h2⟩
  | cons op t ih =>
    intro s h1 h2
    show ((runOps edges t (applyOp edges op s)).current = none ∨ _) ∧ _
    cases op with
    | start id => exact ih _ (Or.inl rfl) (fun h => nomatch h)
    | step => exact ih _ (step_current_ok edges s h1 h2).1 (step_current_ok edges s h1 h2).2
    | pause => exact ih _ h1 h2
    | reset => exact ih _ (Or.inl rfl) (fun h => nomatch h)
    | setSpeed ms => exact ih _ h1 h2

lemma autoFire_of_not_running (edges : List (String × String)) (s : DFSState)
    (h : s.isRunning = false) : autoFire edges s = s := by
  unfold autoFire
  rw [h]
  rfl

/-! ### Claim theorems -/

/-- C1: on the reference graph (A→B, A→C, B→D, B→E, C→E, C→F), after
`start('A')` repeated `step()` calls discover the nodes in exactly the
order A, B, D, E, C, F — `visited` passes through exactly these snapshots
and ends as `[A, B, D, E, C, F]` with the run done. -/
theorem c1_discovery_order :
    (dfsIter initialEdges "A" 1).visited = ["A"] ∧
    (dfsIter initialEdges "A" 2).visited = ["A", "B"] ∧
    (dfsIter initialEdges "A" 3).visited = ["A", "B", "D"] ∧
    (dfsIter initialEdges "A" 4).visited = ["A", "B", "D", "E"] ∧
    (dfsIter initialEdges "A" 6).visited = ["A", "B", "D", "E", "C"] ∧
    (dfsIter initialEdges "A" 7).visited = ["A", "B", "D", "E", "C", "F"] ∧
    (dfsIter initialEdges "A" 10).visited = ["A", "B", "D", "E", "C", "F"] ∧
    (dfsIter initialEdges "A" 10).isDone = true := by
  decide

/-- C2: for every finite directed graph and every start id, along the run
seeded by `start(startId)`: `visited` never contains a duplicate at any
intermediate state, only ids reachable from the start id ever appear in
`visited`, and after sufficiently many `step()` calls every reachable id is
in `visited` — each occurring exactly once. -/
theorem c2_reachability_completeness (edges : List (String × String)) (startId : String) :
    (∀ k, (dfsIter edges startId k).visited.Nodup) ∧
    (∀ k x, x ∈ (dfsIter edges startId k).visited → Reaches edges startId x) ∧
    (∃ n, ∀ m, n ≤ m → ∀ x,
      (x ∈ (dfsIter edges startId m).visited ↔ Reaches edges startId x) ∧
      (Reaches edges startId x → (dfsIter edges startId m).visited.count x = 1)) := by
  refine ⟨fun k => (inv_dfsIter edges startId k).nodup,
          fun k x hx => (inv_dfsIter edges startId k).vis_reach x hx, ?_⟩
  obtain ⟨n, hn⟩ := exists_iterate_stack_nil edges startId
    (mu edges startId (startDFS startId initState)) (startDFS startId initState)
    (inv_start edges startId initState) (Nat.le_refl _)
  refine ⟨n, fun m hm x => ?_⟩
  have hiter : dfsIter edges startId m =
      (step edges)^[m - n] (dfsIter edges startId n) := by
    unfold dfsIter
    conv_lhs => rw [show m = (m - n) + n from (Nat.sub_add_cancel hm).symm]
    rw [Function.iterate_add_apply]
  have hstab := iterate_of_stack_nil edges (dfsIter edges startId n) hn (m - n)
  have hvm : (dfsIter edges startId m).visited = (dfsIter edges startId n).visited := by
    rw [hiter]
    exact hstab.2.1
  have hcomplete : ∀ y, Reaches edges startId y → y ∈ (dfsIter edges startId m).visited := by
    intro y hy
    rw [hvm]
    exact reaches_mem_visited_of_stack_nil edges startId _
      (inv_dfsIter edges startId n) hn y hy
  refine ⟨⟨fun hx => (inv_dfsIter edges startId m).vis_reach x hx, hcomplete x⟩, ?_⟩
  intro hx
  exact List.count_eq_one_of_mem (inv_dfsIter edges startId m).nodup (hcomplete x hx)

/-- Witness for C2 at the reference graph: `B` is in `visited` after three
steps from `start('A')`, hence reachable from `A`. -/
theorem c2_reachability_completeness_witness :
    "B" ∈ (dfsIter initialEdges "A" 3).visited ∧ Reaches initialEdges "A" "B" := by
  have h := c2_reachability_completeness initialEdges "A"
  exact ⟨by decide, h.2.1 3 "B" (by decide)⟩

/-- C4: whenever `step()` finds the stack empty it sets `isDone` and clears
`isRunning`; along any run seeded by `start`, `isDone = true` implies the
stack is empty; and after enough `step()` calls the run is permanently in
the state with empty stack and `isDone = true`. -/
theorem c4_stack_exhaustion (edges : List (String × String)) (startId : String) :
    (∀ s : DFSState, s.stack = [] →
      (step edges s).isDone = true ∧ (step edges s).isRunning = false) ∧
    (∀ k, (dfsIter edges startId k).isDone = true →
      (dfsIter edges startId k).stack = []) ∧
    (∃ n, ∀ m, n ≤ m →
      (dfsIter edges startId m).stack = [] ∧ (dfsIter edges startId m).isDone = true) := by
  refine ⟨?_, fun k => (inv_dfsIter edges startId k).done_nil, ?_⟩
  · intro s h
    rw [step_of_nil edges s h]
    exact ⟨rfl, rfl⟩
  · obtain ⟨n, hn⟩ := exists_iterate_stack_nil edges startId
      (mu edges startId (startDFS startId initState)) (startDFS startId initState)
      (inv_start edges startId initState) (Nat.le_refl _)
    refine ⟨n + 1, fun m hm => ?_⟩
    have hiter : dfsIter edges startId m =
        (step edges)^[m - n] (dfsIter edges startId n) := by
      unfold dfsIter
      conv_lhs => rw [show m = (m - n) + n from (Nat.sub_add_cancel (by omega)).symm]
      rw [Function.iterate_add_apply]
    have hstab := iterate_of_stack_nil edges (dfsIter edges startId n) hn (m - n)
    exact ⟨by rw [hiter]; exact hstab.1, by rw [hiter]; exact hstab.2.2.2 (by omega)⟩

/-- Witness for C4: stepping the empty-stack initial state sets `isDone`
and clears `isRunning`. -/
theorem c4_stack_exhaustion_witness :
    (step initialEdges initState).isDone = true ∧
    (step initialEdges initState).isRunning = false :=
  (c4_stack_exhaustion initialEdges "A").1 initState rfl

/-- C5: once `isDone` is true, any number of further `step()` calls leaves
`visited`, `stack` and `current` unchanged. -/
theorem c5_idempotent_when_done (edges : List (String × String)) (s : DFSState)
    (h : s.isDone = true) (n : Nat) :
    ((step edges)^[n] s).visited = s.visited ∧
    ((step edges)^[n] s).stack = s.stack ∧
    ((step edges)^[n] s).current = s.current := by
  have key : ∀ k : Nat, ((step edges)^[k] s).visited = s.visited ∧
      ((step edges)^[k] s).stack = s.stack ∧
      ((step edges)^[k] s).current = s.current ∧
      ((step edges)^[k] s).isDone = true := by
    intro k
    induction k with
    | zero => exact ⟨rfl, rfl, rfl, h⟩
    | succ k ih =>
      obtain ⟨h1, h2, h3, h4⟩ := ih
      rw [Function.iterate_succ_apply', step_of_done edges _ h4]
      exact ⟨h1, h2, h3, rfl⟩
  exact ⟨(key n).1, (key n).2.1, (key n).2.2.1⟩

/-- Witness for C5 at a concrete done state. -/
theorem c5_idempotent_when_done_witness :
    ((step initialEdges)^[3] { initState with isDone := true }).visited =
      ({ initState with isDone := true } : DFSState).visited ∧
    ((step initialEdges)^[3] { initState with isDone := true }).stack =
      ({ initState with isDone := true } : DFSState).stack ∧
    ((step initialEdges)^[3] { initState with isDone := true }).current =
      ({ initState with isDone := true } : DFSState).current :=
  c5_idempotent_when_done initialEdges { initState with isDone := true } rfl 3

/-- C6: `start` with an id that is not the source of any edge — in
particular an id absent from the graph — is accepted: one `step` visits
exactly that id with empty neighbor expansion and empties the stack
(immediate backtrack), and the next `step` sets `isDone` with `visited`
still `[startId]`. -/
theorem c6_unknown_start (edges : List (String × String)) (startId : String)
    (h : ∀ e ∈ edges, e.1 ≠ startId) :
    (dfsIter edges startId 1).visited = [startId] ∧
    (dfsIter edges startId 1).stack = [] ∧
    (dfsIter edges startId 2).isDone = true ∧
    (dfsIter edges startId 2).visited = [startId] := by
  have hnb : getNeighbors edges startId = [] := by
    unfold getNeighbors
    rw [List.filter_eq_nil_iff.mpr ?_]
    · rfl
    · intro e he hbe
      exact h e he (by rwa [beq_iff_eq] at hbe)
  have hc : candidates edges ([] : List String) startId = [] := by
    unfold candidates
    rw [hnb]
    rfl
  have ht1 : step edges (startDFS startId initState) =
      { visited := [startId], stack := [], current := some startId,
        isRunning := true, isDone := false, speed := 500 } := by
    rw [step_of_leaf edges (startDFS startId initState) [] startId rfl rfl
      (List.not_mem_nil startId) hc]
    rfl
  have h1 : dfsIter edges startId 1 = step edges (startDFS startId initState) := rfl
  have h2 : dfsIter edges startId 2 =
      step edges (step edges (startDFS startId initState)) := rfl
  have ht2 : step edges (step edges (startDFS startId initState)) =
      { visited := [startId], stack := [], current := some startId,
        isRunning := false, isDone := true, speed := 500 } := by
    rw [ht1, step_of_nil edges _ rfl]
  exact ⟨by rw [h1, ht1], by rw [h1, ht1], by rw [h2, ht2], by rw [h2, ht2]⟩

/-- Witness for C6: `start('Z')` on the reference graph (no node Z) yields
`visited = ['Z']`, then immediately `isDone = true`. -/
theorem c6_unknown_start_witness :
    (dfsIter initialEdges "Z" 1).visited = ["Z"] ∧
    (dfsIter initialEdges "Z" 1).stack = [] ∧
    (dfsIter initialEdges "Z" 2).isDone = true ∧
    (dfsIter initialEdges "Z" 2).visited = ["Z"] :=
  c6_unknown_start initialEdges "Z" (by decide)

/-- C7: `reset` and `start` clear `visited`, `stack`, `current` and
`isDone` (with `start` then seeding `stack = [startNodeId]`), both leave
`speed` unchanged, and `speed` persists across any sequence of resets and
restarts. -/
theorem c7_reset_start_fields (edges : List (String × String)) (s : DFSState)
    (id : String) :
    (resetState s).visited = [] ∧ (resetState s).stack = [] ∧
    (resetState s).current = none ∧ (resetState s).isDone = false ∧
    (resetState s).speed = s.speed ∧
    (startDFS id s).visited = [] ∧ (startDFS id s).stack = [id] ∧
    (startDFS id s).current = none ∧ (startDFS id s).isDone = false ∧
    (startDFS id s).speed = s.speed ∧
    (∀ ops : List Op, (∀ op ∈ ops, op.isRestart = true) →
      (runOps edges ops s).speed = s.speed) := by
  refine ⟨rfl, rfl, rfl, rfl, rfl, rfl, rfl, rfl, rfl, rfl, ?_⟩
  intro ops
  induction ops generalizing s with
  | nil => exact fun _ => rfl
  | cons op t ih =>
    intro hall
    have hop := hall op (List.mem_cons_self _ _)
    have ht : ∀ o ∈ t, o.isRestart = true :=
      fun o ho => hall o (List.mem_cons_of_mem _ ho)
    show (runOps edges t (applyOp edges op s)).speed = s.speed
    cases op with
    | start j =>
      rw [ih (applyOp edges (Op.start j) s) ht]
      rfl
    | step => exact absurd hop (by simp [Op.isRestart])
    | pause => exact absurd hop (by simp [Op.isRestart])
    | reset =>
      rw [ih (applyOp edges Op.reset s) ht]
      rfl
    | setSpeed ms => exact absurd hop (by simp [Op.isRestart])

/-- Witness for C7: speed survives a concrete reset/restart sequence. -/
theorem c7_reset_start_fields_witness :
    (runOps initialEdges [Op.reset, Op.start "B", Op.reset] initState).speed =
      initState.speed := by
  have h := c7_reset_start_fields initialEdges initState "A"
  exact h.2.2.2.2.2.2.2.2.2.2 [Op.reset, Op.start "B", Op.reset] (by decide)

/-- C3 is refuted on a self-loop: the code filters candidates against the
`visited` value captured before `node` is appended, not the one that
already includes `node`.  On graph `[A→A]`, one step from `start('A')`
pushes A as its own candidate (`stack = [A, A]`), while the step as the
claim words it (`stepClaimed`) would find no candidates and pop
(`stack = []`). -/
theorem c3_counterexample :
    (step [("A", "A")] (startDFS "A" initState)).stack = ["A", "A"] ∧
    (stepClaimed [("A", "A")] (startDFS "A" initState)).stack = [] ∧
    step [("A", "A")] (startDFS "A" initState) ≠
      stepClaimed [("A", "A")] (startDFS "A" initState) := by
  decide

/-- C3 (amended): for every graph and every non-done state whose stack is
`rest ++ [node]` with `node` not yet visited, `step()` appends `node` to
`visited`, sets `current` to `node`, and computes
`candidates = reverse (filter (· ∉ visited) (neighbors node))` where
`visited` is the list from BEFORE `node` was appended; if the candidates
are empty it removes exactly the top entry (stack becomes `rest`),
otherwise the stack becomes `rest ++ node :: candidates`. -/
theorem c3_expand_amended (edges : List (String × String)) (s : DFSState)
    (rest : List String) (node : String)
    (hd : s.isDone = false) (hs : s.stack = rest ++ [node]) (hv : node ∉ s.visited) :
    (step edges s).visited = s.visited ++ [node] ∧
    (step edges s).current = some node ∧
    (candidates edges s.visited node = [] → (step edges s).stack = rest) ∧
    (candidates edges s.visited node ≠ [] →
      (step edges s).stack = rest ++ node :: candidates edges s.visited node) := by
  by_cases hc : candidates edges s.visited node = []
  · rw [step_of_leaf edges s rest node hd hs hv hc]
    exact ⟨rfl, rfl, fun _ => rfl, fun hne => absurd hc hne⟩
  · rw [step_of_expand edges s rest node hd hs hv hc]
    exact ⟨rfl, rfl, fun he => absurd he hc, fun _ => rfl⟩

/-- Witness for amended C3 at the reference graph's first step. -/
theorem c3_expand_amended_witness :
    (step initialEdges (startDFS "A" initState)).visited = [] ++ ["A"] ∧
    (step initialEdges (startDFS "A" initState)).stack =
      [] ++ "A" :: candidates initialEdges [] "A" := by
  have h := c3_expand_amended initialEdges (startDFS "A" initState) [] "A"
    rfl rfl (by decide)
  exact ⟨h.1, h.2.2.2 (by decide)⟩

/-- C8 is refuted at the engine boundary: `setSpeed` is the raw state
setter, so a non-positive value is stored unchanged and the running state's
auto-advance timer is then armed with that non-positive delay. -/
theorem c8_counterexample :
    (setSpeedOp 0 (startDFS "A" initState)).speed = 0 ∧
    armedDelay (setSpeedOp 0 (startDFS "A" initState)) = some 0 := by
  decide

/-- C8 (amended): the engine's `setSpeed` performs no rejection or
clamping — it stores `ms` verbatim, so a non-positive value would reach the
timer; clamping exists only at the UI boundary, whose slider keeps the
value in [100, 1000], so a speed set through the slider is always positive
and any timer armed with it has positive delay. -/
theorem c8_speed_amended (ms v : Int) (s : DFSState) :
    (setSpeedOp ms s).speed = ms ∧
    100 ≤ sliderClamp v ∧ sliderClamp v ≤ 1000 ∧ 0 < sliderClamp v ∧
    (∀ d, armedDelay (setSpeedOp (sliderClamp v) s) = some d → 0 < d) := by
  refine ⟨rfl, le_max_left _ _, ?_, ?_, ?_⟩
  · exact max_le (by norm_num) (min_le_left _ _)
  · exact lt_of_lt_of_le (by norm_num) (le_max_left _ _)
  · intro d hd
    unfold armedDelay at hd
    by_cases hg : ((setSpeedOp (sliderClamp v) s).isRunning &&
        !(setSpeedOp (sliderClamp v) s).isDone) = true
    · rw [if_pos hg] at hd
      have hds : d = sliderClamp v := by
        have := Option.some.inj hd
        exact this.symm
      rw [hds]
      exact lt_of_lt_of_le (by norm_num) (le_max_left _ _)
    · rw [if_neg hg] at hd
      cases hd

/-- Witness for amended C8: a concrete verbatim store and a concrete
positive armed delay through the slider clamp. -/
theorem c8_speed_amended_witness :
    (setSpeedOp (-5) (startDFS "A" initState)).speed = -5 ∧ (0 : Int) < 100 := by
  have h := c8_speed_amended (-5) 0 (startDFS "A" initState)
  exact ⟨h.1, h.2.2.2.2 100 (by decide)⟩

/-- C9: after `pause()` no timer-driven `step` changes any state — the
armed-only-while-running timer delivers nothing, however many times it
would fire; the same holds after `reset`, and a done state absorbs a fire
(`pause`, `reset` and completion all leave no effective pending step). -/
theorem c9_cancellation (edges : List (String × String)) (s : DFSState) (n : Nat) :
    ((autoFire edges)^[n] (pause s) = pause s) ∧
    ((autoFire edges)^[n] (resetState s) = resetState s) ∧
    (s.isDone = true → autoFire edges s = s) := by
  refine ⟨?_, ?_, ?_⟩
  · induction n with
    | zero => rfl
    | succ n ih =>
      rw [Function.iterate_succ_apply', ih, autoFire_of_not_running edges _ rfl]
  · induction n with
    | zero => rfl
    | succ n ih =>
      rw [Function.iterate_succ_apply', ih, autoFire_of_not_running edges _ rfl]
  · intro h
    unfold autoFire
    rw [h]
    simp

/-- Witness for C9 at a concrete done state. -/
theorem c9_cancellation_witness :
    autoFire initialEdges { initState with isDone := true } =
      { initState with isDone := true } :=
  (c9_cancellation initialEdges { initState with isDone := true } 0).2.2 rfl

/-- C10: in every engine state reachable from the initial state by any
sequence of start/step/pause/reset/setSpeed operations, `current` is either
`none` or an element of `visited`; and a `step` on a reachable state with
non-empty stack leaves `current` pointing at a member of `visited`. -/
theorem c10_current_in_visited (edges : List (String × String)) (ops : List Op) :
    ((runOps edges ops initState).current = none ∨
      ∃ c, (runOps edges ops initState).current = some c ∧
        c ∈ (runOps edges ops initState).visited) ∧
    ((runOps edges ops initState).stack ≠ [] →
      ∃ c, (step edges (runOps edges ops initState)).current = some c ∧
        c ∈ (step edges (runOps edges ops initState)).visited) := by
  have hJ := runOps_current_ok edges ops initState (Or.inl rfl) (fun h => nomatch h)
  refine ⟨hJ.1, ?_⟩
  intro hne
  have hd' : (runOps edges ops initState).isDone = false := by
    cases h : (runOps edges ops initState).isDone
    · rfl
    · exact absurd (hJ.2 h) hne
  rcases List.eq_nil_or_concat (runOps edges ops initState).stack with hnil | ⟨rest, node, hs⟩
  · exact absurd hnil hne
  · rw [List.concat_eq_append] at hs
    by_cases hv : node ∈ (runOps edges ops initState).visited
    · rw [step_of_revisit edges _ rest node hd' hs hv]
      exact ⟨node, rfl, hv⟩
    · by_cases hc : candidates edges (runOps edges ops initState).visited node = []
      · rw [step_of_leaf edges _ rest node hd' hs hv hc]
        exact ⟨node, rfl, List.mem_append_right _ (List.mem_singleton.mpr rfl)⟩
      · rw [step_of_expand edges _ rest node hd' hs hv hc]
        exact ⟨node, rfl, List.mem_append_right _ (List.mem_singleton.mpr rfl)⟩

/-- Witness for C10: after `start('A')`, the stack is non-empty and a step
sets `current` to a visited node. -/
theorem c10_current_in_visited_witness :
    ∃ c, (step initialEdges (runOps initialEdges [Op.start "A"] initState)).current =
        some c ∧
      c ∈ (step initialEdges (runOps initialEdges [Op.start "A"] initState)).visited :=
  (c10_current_in_visited initialEdges [Op.start "A"]).2 (by decide)
